import Mathlib

/-!
# CDBB: Collaborative Distributed Burst Buffer

A shallow embedding of `cdbb.c` (coordinator placement step, coordinator
report step, the array-backed FIFO of pending chunk lengths, and the
producer and consumer of a burst-buffer node), followed by theorems about it.

Conventions of the embedding:
* `unsigned long` is a 64-bit quantity, modelled as a `Nat` with every
  addition and subtraction reduced modulo `2 ^ 64`;
* `int` is modelled as an `Int`; conversion to `unsigned long` is `toULong`;
* an array access outside the array makes the step undefined (`none`);
* the local `ans` of `findSmallest` has no initialiser in the source, so the
  value it holds before the loop is an explicit argument `ans0`.
-/

namespace CDBB

/-! ## Machine constants -/

/-- Largest value of a 32-bit `int`. -/
def INT_MAX : Nat := 2147483647

/-- Number of distinct values of a 64-bit `unsigned long`. -/
def ULONG_RANGE : Nat := 2 ^ 64

/-- Integer conversion from `int` to `unsigned long` (reduction modulo `2 ^ 64`). -/
def toULong (x : Int) : Nat := (x % (ULONG_RANGE : Int)).toNat

/-- Addition of two `unsigned long` values. -/
def addULong (a b : Nat) : Nat := (a + b) % ULONG_RANGE

/-- Subtraction of two `unsigned long` values. -/
def subULong (a b : Nat) : Nat := (a + (ULONG_RANGE - b % ULONG_RANGE)) % ULONG_RANGE

/-- Capacity of one burst buffer: `unsigned long burstBufferMaxSize = 4294967296`. -/
def burstBufferMaxSize : Nat := 4294967296

/-! ## Coordinator (rank 0) -/

/-- Loop of `findSmallest`: `i` is the loop index, `smallest` and `ans` the two locals;
the list holds the array cells not yet visited. -/
def findSmallestLoop : List Nat → Nat → Nat → Int → Int
  | [], _, _, ans => ans
  | x :: rest, i, smallest, ans =>
    if smallest > x then findSmallestLoop rest (i + 1) x (i : Int)
    else findSmallestLoop rest (i + 1) smallest ans

/-- Function `findSmallest(array, size)` of the source. `smallest` starts at `INT_MAX`;
`ans` is declared without initialiser, `ans0` is the value it happens to hold. -/
def findSmallest (ans0 : Int) (array : List Nat) (size : Nat) : Int :=
  findSmallestLoop (array.take size) 0 INT_MAX ans0

/-- Number of slots of the occupancy vector: `int BBmonitorSize = size / 8`. -/
def BBmonitorSize (size : Nat) : Nat := size / 8

/-- Occupancy vector as allocated and zeroed by `main`. -/
def initialBBmonitor (size : Nat) : List Nat := List.replicate (BBmonitorSize size) 0

/-- The two integers sent back to a writer: `checkResult` on tag 2 and
`BBrank2send` on tag 3. -/
structure Decision where
  checkResult : Int
  BBrank2send : Int
deriving DecidableEq, Repr

/-- Coordinator branch `senderID == 1` of `main`: one writer probe.
`maxSize` is the value of `burstBufferMaxSize`, `source` is `status.MPI_SOURCE`,
`ans0` the value held by the uninitialised local of `findSmallest`.
The result is the decision sent to the writer and the occupancy vector afterwards. -/
def coordinatorProbe (maxSize : Nat) (ans0 : Int) (BBmonitor : List Nat) (source : Nat)
    (incomingDataSize : Int) : Option (Decision × List Nat) :=
  let localBB := source / 8
  let rankOfSmallestBurstBufferOffset := findSmallest ans0 BBmonitor BBmonitor.length
  match BBmonitor[localBB]? with
  | none => none
  | some occLocal =>
    if addULong occLocal (toULong incomingDataSize) < maxSize then
      some (⟨1, (localBB : Int) * 8 + 7⟩,
        BBmonitor.set localBB (addULong occLocal (toULong incomingDataSize)))
    else if rankOfSmallestBurstBufferOffset < 0 then none
    else
      match BBmonitor[rankOfSmallestBurstBufferOffset.toNat]? with
      | none => none
      | some occSmallest =>
        if addULong occSmallest (toULong incomingDataSize) < maxSize then
          some (⟨1, rankOfSmallestBurstBufferOffset * 8 + 7⟩,
            BBmonitor.set rankOfSmallestBurstBufferOffset.toNat
              (addULong occSmallest (toULong incomingDataSize)))
        else
          some (⟨0, 666⟩, BBmonitor)

/-- Coordinator branch `senderID == 0` of `main`: one report from a burst-buffer rank,
`BBmonitor[status.MPI_SOURCE / 8] = newBBmonitor`. -/
def coordinatorReport (BBmonitor : List Nat) (source : Nat) (newBBmonitor : Nat) :
    Option (List Nat) :=
  if source / 8 < BBmonitor.length then some (BBmonitor.set (source / 8) newBBmonitor)
  else none

/-- One message handled by the coordinator loop: the sender kind received on tag 0
(0 for a burst-buffer report, 1 for a writer probe) together with the message that
follows it. A probe also carries the value held by the uninitialised local of
`findSmallest` during that iteration. -/
inductive Message where
  | report (source : Nat) (newBBmonitor : Nat)
  | probe (source : Nat) (incomingDataSize : Int) (ans0 : Int)
deriving DecidableEq, Repr

/-- Loop `while(1)` of the coordinator, run over a finite list of incoming messages.
Returns the decisions sent (in order) and the occupancy vector reached. -/
def coordinatorLoop (maxSize : Nat) : List Nat → List Message → Option (List Decision × List Nat)
  | BBmonitor, [] => some ([], BBmonitor)
  | BBmonitor, Message.report source newBBmonitor :: rest =>
    match coordinatorReport BBmonitor source newBBmonitor with
    | none => none
    | some mon' => coordinatorLoop maxSize mon' rest
  | BBmonitor, Message.probe source incomingDataSize ans0 :: rest =>
    match coordinatorProbe maxSize ans0 BBmonitor source incomingDataSize with
    | none => none
    | some (d, mon') =>
      match coordinatorLoop maxSize mon' rest with
      | none => none
      | some (ds, mon'') => some (d :: ds, mon'')

/-! ## FIFO of pending chunk lengths -/

/-- Capacity of the FIFO: `#define MAX 2000`. -/
def MAX : Nat := 2000

/-- The four globals of the FIFO: `queue[MAX]`, `front`, `rear`, `itemCount`.
The array is the map from a cell index to the value stored in the cell. -/
structure Fifo where
  queue : Nat → Nat
  front : Int
  rear : Int
  itemCount : Int

/-- Initial values of the globals: a zeroed array, `front = 0`, `rear = -1`,
`itemCount = 0`. -/
def initialFifo : Fifo := ⟨fun _ => 0, 0, -1, 0⟩

/-- Function `peek()`. -/
def peek (q : Fifo) : Nat := q.queue q.front.toNat

/-- Function `isEmpty()`. -/
def isEmpty (q : Fifo) : Bool := decide (q.itemCount = 0)

/-- Function `isFull()`. -/
def isFull (q : Fifo) : Bool := decide (q.itemCount = (MAX : Int))

/-- Function `insert(data)`: when the FIFO is full nothing is stored (the source only
prints a message). -/
def insert (q : Fifo) (data : Nat) : Fifo :=
  if isFull q = false then
    let rear1 : Int := if q.rear = (MAX : Int) - 1 then -1 else q.rear
    let rear2 : Int := rear1 + 1
    { q with queue := Function.update q.queue rear2.toNat data,
             rear := rear2,
             itemCount := q.itemCount + 1 }
  else q

/-- Function `removeData()`: returns the value read and the globals afterwards. -/
def removeData (q : Fifo) : Nat × Fifo :=
  let data := q.queue q.front.toNat
  let front1 : Int := q.front + 1
  let front2 : Int := if front1 = (MAX : Int) then 0 else front1
  (data, { q with front := front2, itemCount := q.itemCount - 1 })

/-- Chunk lengths currently held by the FIFO, oldest first: the `itemCount` cells read
from `front` onwards, wrapping at `MAX`. -/
def pending (q : Fifo) : List Nat :=
  (List.range q.itemCount.toNat).map (fun k => q.queue ((q.front.toNat + k) % MAX))

/-! ## Burst-buffer node (ranks with `rank % 8 == 7`) -/

/-- State of one burst-buffer node: the FIFO, the in-memory buffer `burstBuffer` (map from
offset to byte), the occupancy counter `*localBBmonitor`, and the bytes appended so far to
the drain file `rank<r>.out`. -/
structure BBNode where
  fifo : Fifo
  burstBuffer : Nat → Nat
  localBBmonitor : Nat
  out : List Nat

/-- Node state after initialisation in `main`; `buf0` is the content of the freshly
allocated buffer. -/
def initialBBNode (buf0 : Nat → Nat) : BBNode := ⟨initialFifo, buf0, 0, []⟩

/-- One iteration of the loop of `producer`: the payload `data` (of `incomingDataSize`
bytes) is received at the start of `burstBuffer`, the occupancy is increased and the
length is inserted in the FIFO. -/
def producerStep (s : BBNode) (data : List Nat) : BBNode :=
  let incomingDataSize : Int := (data.length : Int)
  { s with burstBuffer := fun i => if i < data.length then data.getD i 0 else s.burstBuffer i,
           localBBmonitor := addULong s.localBBmonitor (toULong incomingDataSize),
           fifo := insert s.fifo (toULong incomingDataSize) }

/-- One iteration of the loop of `consumer`: nothing happens while the occupancy is 0;
otherwise `assert(!isEmpty())` must hold (else the step aborts, `none`), the head length
is removed, that many bytes from the start of `burstBuffer` are appended to the drain
file, and the occupancy is decreased. -/
def consumerStep (s : BBNode) : Option BBNode :=
  if s.localBBmonitor > 0 then
    if isEmpty s.fifo then none
    else
      let r := removeData s.fifo
      let drainSize := r.1
      some { s with fifo := r.2,
                    out := s.out ++ (List.range drainSize).map s.burstBuffer,
                    localBBmonitor := subULong s.localBBmonitor drainSize }
  else some s

/-- One atomic step of a burst-buffer node. -/
inductive BBAction where
  | produce (data : List Nat)
  | consume
deriving DecidableEq, Repr

/-- Run an interleaving of producer and consumer steps. -/
def runBB : BBNode → List BBAction → Option BBNode
  | s, [] => some s
  | s, BBAction.produce data :: rest => runBB (producerStep s data) rest
  | s, BBAction.consume :: rest =>
    match consumerStep s with
    | none => none
    | some s' => runBB s' rest

/-- No producer step of the interleaving finds the FIFO full. -/
def neverFull : BBNode → List BBAction → Bool
  | _, [] => true
  | s, BBAction.produce data :: rest =>
    !isFull s.fifo && neverFull (producerStep s data) rest
  | s, BBAction.consume :: rest =>
    match consumerStep s with
    | none => true
    | some s' => neverFull s' rest

/-! ## Sequences of calls to the FIFO -/

/-- One call to the FIFO: `insert(data)` or `removeData()`. -/
inductive FifoCall where
  | insert (data : Nat)
  | removeData
deriving DecidableEq, Repr

/-- Run a sequence of calls on the globals of the FIFO. Returns the values returned by
the `removeData` calls, in call order, and the globals afterwards. -/
def runFifo : Fifo → List FifoCall → List Nat × Fifo
  | q, [] => ([], q)
  | q, FifoCall.insert data :: rest => runFifo (insert q data) rest
  | q, FifoCall.removeData :: rest =>
    ((removeData q).1 :: (runFifo (removeData q).2 rest).1, (runFifo (removeData q).2 rest).2)

/-- Conditions of use along a sequence of calls: `removeData` is only called when
`isEmpty()` is false and `insert` only when fewer than `MAX` items are held. -/
def callsAllowed : Fifo → List FifoCall → Bool
  | _, [] => true
  | q, FifoCall.insert data :: rest =>
    decide (q.itemCount < (MAX : Int)) && callsAllowed (insert q data) rest
  | q, FifoCall.removeData :: rest =>
    !isEmpty q && callsAllowed (removeData q).2 rest

/-- Plain FIFO list the ring queue is compared with, written from the words of the
specification: a value inserted goes to the back of the list, a removal returns the
oldest value (the front of the list) and is undefined on the empty list. Returns the
values removed, in call order, and the list afterwards. -/
def specFifoRun : List Nat → List FifoCall → Option (List Nat × List Nat)
  | l, [] => some ([], l)
  | l, FifoCall.insert data :: rest => specFifoRun (l ++ [data]) rest
  | [], FifoCall.removeData :: _ => none
  | x :: l, FifoCall.removeData :: rest =>
    match specFifoRun l rest with
    | none => none
    | some (outs, l') => some (x :: outs, l')

/-- Values passed to `insert` by a sequence of calls, in call order. -/
def insertedValues : List FifoCall → List Nat
  | [] => []
  | FifoCall.insert data :: rest => data :: insertedValues rest
  | FifoCall.removeData :: rest => insertedValues rest

/-- The sequence `insert(n-1), removeData(), ..., insert(0), removeData()` of `n` pairs of
calls; each pair moves `front` and `rear` one cell forward. -/
def insertRemovePairs : Nat → List FifoCall
  | 0 => []
  | n + 1 => FifoCall.insert n :: FifoCall.removeData :: insertRemovePairs n

/-! ## Invariants used in the proofs -/

/-- Well-formed FIFO globals, as maintained by `insert` and `removeData`: `front` is a
cell index, `itemCount` is between 0 and `MAX`, `rear` is -1 or a cell index, and the cell
written by the next `insert` is the one `itemCount` places after `front`. -/
def FifoWF (q : Fifo) : Prop :=
  0 ≤ q.front ∧ q.front < (MAX : Int) ∧ 0 ≤ q.itemCount ∧ q.itemCount ≤ (MAX : Int) ∧
  -1 ≤ q.rear ∧ q.rear < (MAX : Int) ∧
  (if q.rear = (MAX : Int) - 1 then (-1 : Int) else q.rear) + 1 =
    (q.front + q.itemCount) % (MAX : Int)

/-- Invariant of a node: the FIFO globals are well formed, the occupancy counter is the
sum of the pending lengths, and every pending length is an `int` value. -/
def BBInv (s : BBNode) : Prop :=
  FifoWF s.fifo ∧ s.localBBmonitor = (pending s.fifo).sum ∧
  ∀ x ∈ pending s.fifo, x ≤ INT_MAX

/-! ## Basic facts about the machine arithmetic -/

theorem toULong_of_nonneg (x : Int) (h : 0 ≤ x) : toULong x = x.toNat % ULONG_RANGE := by
  unfold toULong
  simp only [ULONG_RANGE]
  omega

theorem addULong_toULong (a : Nat) (x : Int) (h : 0 ≤ x) :
    addULong a (toULong x) = (a + x.toNat) % ULONG_RANGE := by
  rw [toULong_of_nonneg x h]
  unfold addULong
  exact Nat.add_mod_mod a x.toNat ULONG_RANGE

theorem addULong_toULong_of_lt (a : Nat) (x : Int) (h : 0 ≤ x)
    (hfit : a + x.toNat < ULONG_RANGE) : addULong a (toULong x) = a + x.toNat := by
  rw [addULong_toULong a x h]
  exact Nat.mod_eq_of_lt hfit

/-- The test and the update of a probe use 64-bit additions: on a counter at `2 ^ 64 - 1`
a probe of one byte wraps to 0, is accepted, and leaves the counter at 0. -/
theorem coordinatorProbe_wraps_at_ulong_range :
    coordinatorProbe burstBufferMaxSize 0 [18446744073709551615] 1 1 = some (⟨1, 7⟩, [0]) := by
  decide

/-! ## Shape of the result of a probe -/

/-- Every defined result of a probe comes from exactly one of the three branches. -/
theorem coordinatorProbe_cases (maxSize : Nat) (ans0 : Int) (BBmonitor : List Nat)
    (source : Nat) (incomingDataSize : Int) (d : Decision) (mon' : List Nat)
    (h : coordinatorProbe maxSize ans0 BBmonitor source incomingDataSize = some (d, mon')) :
    ∃ occLocal, BBmonitor[source / 8]? = some occLocal ∧
      ((addULong occLocal (toULong incomingDataSize) < maxSize ∧
          d = ⟨1, ((source / 8 : Nat) : Int) * 8 + 7⟩ ∧
          mon' = BBmonitor.set (source / 8) (addULong occLocal (toULong incomingDataSize))) ∨
       (¬ addULong occLocal (toULong incomingDataSize) < maxSize ∧
          ∃ r : Nat, ∃ occSmallest,
            findSmallest ans0 BBmonitor BBmonitor.length = (r : Int) ∧
            BBmonitor[r]? = some occSmallest ∧
            ((addULong occSmallest (toULong incomingDataSize) < maxSize ∧
                d = ⟨1, (r : Int) * 8 + 7⟩ ∧
                mon' = BBmonitor.set r (addULong occSmallest (toULong incomingDataSize))) ∨
             (¬ addULong occSmallest (toULong incomingDataSize) < maxSize ∧
                d = ⟨0, 666⟩ ∧ mon' = BBmonitor)))) := by
  unfold coordinatorProbe at h
  simp only at h
  cases hl : BBmonitor[source / 8]? with
  | none => rw [hl] at h; simp at h
  | some occLocal =>
    rw [hl] at h
    refine ⟨occLocal, rfl, ?_⟩
    by_cases h1 : addULong occLocal (toULong incomingDataSize) < maxSize
    · left
      simp only [h1, if_true, Option.some.injEq, Prod.mk.injEq] at h
      exact ⟨h1, h.1.symm, h.2.symm⟩
    · right
      refine ⟨h1, ?_⟩
      simp only [h1, if_false] at h
      by_cases hneg : findSmallest ans0 BBmonitor BBmonitor.length < 0
      · simp [hneg] at h
      · simp only [hneg, if_false] at h
        obtain ⟨r, hr⟩ := Int.eq_ofNat_of_zero_le (not_lt.mp hneg)
        rw [hr] at h
        simp only [Int.toNat_ofNat] at h
        cases hs : BBmonitor[r]? with
        | none => rw [hs] at h; simp at h
        | some occSmallest =>
          rw [hs] at h
          refine ⟨r, occSmallest, hr, hs, ?_⟩
          by_cases h2 : addULong occSmallest (toULong incomingDataSize) < maxSize
          · left
            simp only [h2, if_true, Option.some.injEq, Prod.mk.injEq] at h
            exact ⟨h2, h.1.symm, h.2.symm⟩
          · right
            simp only [h2, if_false, Option.some.injEq, Prod.mk.injEq] at h
            exact ⟨h2, h.1.symm, h.2.symm⟩

theorem getElem?_set_of_some (l : List Nat) (i v a : Nat) (h : l[i]? = some v) :
    (l.set i a)[i]? = some a := by
  obtain ⟨hlt, _⟩ := List.getElem?_eq_some.mp h
  rw [List.getElem?_set]
  simp [hlt]

/-! ## Claims about the coordinator -/

/-- C1: whenever a probe of size > 0 is answered with accepted = 1 and target rank `t`,
the occupancy of slot `t / 8` after the step is its occupancy before the step plus the
size, and that new occupancy is strictly below the capacity. The occupancy counters are
64-bit, so the vectors considered are those on which adding the size does not overflow
(in particular all vectors with entries up to the 4 GiB capacity). -/
theorem C1_accepted_adds_size_below_capacity (maxSize : Nat) (ans0 : Int)
    (BBmonitor : List Nat) (source : Nat) (size : Int) (t : Int) (mon' : List Nat)
    (hsize : 0 < size)
    (hfit : ∀ x ∈ BBmonitor, (x : Int) + size < (ULONG_RANGE : Int))
    (h : coordinatorProbe maxSize ans0 BBmonitor source size = some (⟨1, t⟩, mon')) :
    ∃ before after : Nat,
      BBmonitor[(t / 8).toNat]? = some before ∧ mon'[(t / 8).toNat]? = some after ∧
      (after : Int) = (before : Int) + size ∧ after < maxSize := by
  have key : ∀ (slot occ : Nat), BBmonitor[slot]? = some occ →
      addULong occ (toULong size) < maxSize → t = (slot : Int) * 8 + 7 →
      mon' = BBmonitor.set slot (addULong occ (toULong size)) →
      ∃ before after : Nat,
        BBmonitor[(t / 8).toNat]? = some before ∧ mon'[(t / 8).toNat]? = some after ∧
        (after : Int) = (before : Int) + size ∧ after < maxSize := by
    intro slot occ hocc hlt ht hmon
    have hslot : (t / 8).toNat = slot := by omega
    have hx := hfit occ (List.getElem?_mem hocc)
    have hval : addULong occ (toULong size) = occ + size.toNat := by
      apply addULong_toULong_of_lt occ size (le_of_lt hsize)
      have : ((occ + size.toNat : Nat) : Int) < (ULONG_RANGE : Int) := by
        push_cast
        rw [Int.toNat_of_nonneg (le_of_lt hsize)]
        exact hx
      exact_mod_cast this
    refine ⟨occ, occ + size.toNat, ?_, ?_, ?_, ?_⟩
    · rw [hslot]; exact hocc
    · rw [hslot, hmon, hval]; exact getElem?_set_of_some BBmonitor slot occ _ hocc
    · push_cast
      rw [Int.toNat_of_nonneg (le_of_lt hsize)]
    · rw [← hval]; exact hlt
  obtain ⟨occLocal, hl, hcase⟩ :=
    coordinatorProbe_cases maxSize ans0 BBmonitor source size ⟨1, t⟩ mon' h
  rcases hcase with ⟨h1, hd, hm⟩ | ⟨_, r, occS, _, hs, ⟨h2, hd, hm⟩ | ⟨_, hd, _⟩⟩
  · exact key (source / 8) occLocal hl h1 (by injection hd) hm
  · exact key r occS hs h2 (by injection hd) hm
  · have hc : (1 : Int) = 0 := congrArg Decision.checkResult hd
    exact absurd hc (by decide)

/-- Witness for C1: writer rank 9 probing 500 bytes against an empty vector of three
slots with capacity 1000 is accepted at rank 15 and slot 1 goes from 0 to 500. -/
theorem C1_accepted_adds_size_below_capacity_witness :
    coordinatorProbe 1000 0 [0, 0, 0] 9 500 = some (⟨1, 15⟩, [0, 500, 0]) ∧
    ∃ before after : Nat,
      [0, 0, 0][((15 : Int) / 8).toNat]? = some before ∧
      [0, 500, 0][((15 : Int) / 8).toNat]? = some after ∧
      (after : Int) = (before : Int) + 500 ∧ after < 1000 :=
  ⟨by decide,
   C1_accepted_adds_size_below_capacity 1000 0 [0, 0, 0] 9 500 15 [0, 500, 0] (by decide)
     (by intro x hx; simp at hx; subst hx; simp [ULONG_RANGE]) (by decide)⟩

/-- Local branch of a probe: when the test of the source succeeds on the local slot the
step is defined and accepts at the local burst buffer. -/
theorem coordinatorProbe_local (maxSize : Nat) (ans0 : Int) (BBmonitor : List Nat)
    (source : Nat) (size : Int) (occ : Nat) (hocc : BBmonitor[source / 8]? = some occ)
    (h : addULong occ (toULong size) < maxSize) :
    coordinatorProbe maxSize ans0 BBmonitor source size =
      some (⟨1, ((source / 8 : Nat) : Int) * 8 + 7⟩,
        BBmonitor.set (source / 8) (addULong occ (toULong size))) := by
  unfold coordinatorProbe
  simp only [hocc, h, if_true]

/-- C2: for a writer rank `source` with local slot `source / 8` holding `occ`, and a
size > 0: if `occ + size` is below the capacity the step accepts with target rank
`(source / 8) * 8 + 7`; and if `occ + size` is at least the capacity (equality included,
the sum being a 64-bit value) the step never accepts with the local burst buffer as
target. -/
theorem C2_local_preference_strict (maxSize : Nat) (ans0 : Int) (BBmonitor : List Nat)
    (source : Nat) (size : Int) (occ : Nat)
    (hocc : BBmonitor[source / 8]? = some occ) (hsize : 0 < size) :
    ((occ : Int) + size < (maxSize : Int) →
      ∃ mon', coordinatorProbe maxSize ans0 BBmonitor source size =
        some (⟨1, ((source / 8 : Nat) : Int) * 8 + 7⟩, mon')) ∧
    ((maxSize : Int) ≤ (occ : Int) + size → (occ : Int) + size < (ULONG_RANGE : Int) →
      ∀ d mon', coordinatorProbe maxSize ans0 BBmonitor source size = some (d, mon') →
        ¬ (d.checkResult = 1 ∧ d.BBrank2send = ((source / 8 : Nat) : Int) * 8 + 7)) := by
  have hnn : 0 ≤ size := le_of_lt hsize
  have hsum : ((occ + size.toNat : Nat) : Int) = (occ : Int) + size := by
    push_cast
    rw [Int.toNat_of_nonneg hnn]
  constructor
  · intro hroom
    refine ⟨_, coordinatorProbe_local maxSize ans0 BBmonitor source size occ hocc ?_⟩
    rw [addULong_toULong occ size hnn]
    have h1 : (occ + size.toNat) % ULONG_RANGE ≤ occ + size.toNat := Nat.mod_le _ _
    have h2 : occ + size.toNat < maxSize := by
      have : ((occ + size.toNat : Nat) : Int) < (maxSize : Int) := by rw [hsum]; exact hroom
      exact_mod_cast this
    omega
  · intro hfull hfit d mon' h ⟨hacc, htgt⟩
    have hfit' : occ + size.toNat < ULONG_RANGE := by
      have : ((occ + size.toNat : Nat) : Int) < (ULONG_RANGE : Int) := by rw [hsum]; exact hfit
      exact_mod_cast this
    have hval : addULong occ (toULong size) = occ + size.toNat :=
      addULong_toULong_of_lt occ size hnn hfit'
    have hno : ¬ addULong occ (toULong size) < maxSize := by
      rw [hval]
      have : (maxSize : Int) ≤ ((occ + size.toNat : Nat) : Int) := by rw [hsum]; exact hfull
      have h3 : maxSize ≤ occ + size.toNat := by exact_mod_cast this
      omega
    obtain ⟨occLocal, hl, hcase⟩ :=
      coordinatorProbe_cases maxSize ans0 BBmonitor source size d mon' h
    rw [hocc] at hl
    cases hl
    rcases hcase with ⟨h1, _, _⟩ | ⟨_, r, occS, _, hs, ⟨h2, hd, _⟩ | ⟨_, hd, _⟩⟩
    · exact hno h1
    · rw [hd] at htgt
      simp only at htgt
      have hr : r = source / 8 := by omega
      rw [hr, hocc] at hs
      cases hs
      exact hno h2
    · rw [hd] at hacc
      simp at hacc

/-- Witness for C2: with capacity 1000, slot 1 at 500 and writer rank 9: a probe of 499
is accepted at rank 15, a probe of 500 (sum exactly 1000) is not accepted at rank 15. -/
theorem C2_local_preference_strict_witness :
    (∃ mon', coordinatorProbe 1000 0 [0, 500, 0] 9 499 =
        some (⟨1, ((9 / 8 : Nat) : Int) * 8 + 7⟩, mon')) ∧
    (∀ d mon', coordinatorProbe 1000 0 [0, 500, 0] 9 500 = some (d, mon') →
        ¬ (d.checkResult = 1 ∧ d.BBrank2send = ((9 / 8 : Nat) : Int) * 8 + 7)) ∧
    coordinatorProbe 1000 0 [0, 500, 0] 9 500 = some (⟨1, 7⟩, [500, 500, 0]) :=
  ⟨(C2_local_preference_strict 1000 0 [0, 500, 0] 9 499 500 (by decide) (by decide)).1
      (by decide),
   (C2_local_preference_strict 1000 0 [0, 500, 0] 9 500 500 (by decide) (by decide)).2
      (by decide) (by simp [ULONG_RANGE]),
   by decide⟩

/-! ### The sentinel `INT_MAX` in `findSmallest` -/

/-- The loop of `findSmallest` never assigns `ans` when no cell is below `smallest`. -/
theorem findSmallestLoop_unassigned (l : List Nat) (i smallest : Nat) (ans : Int)
    (h : ∀ x ∈ l, smallest ≤ x) : findSmallestLoop l i smallest ans = ans := by
  induction l generalizing i with
  | nil => rfl
  | cons x rest ih =>
    have hx : ¬ smallest > x := not_lt.mpr (h x (List.mem_cons_self x rest))
    simp only [findSmallestLoop, hx, if_false]
    exact ih (i + 1) (fun y hy => h y (List.mem_cons_of_mem x hy))

/-- When every occupancy is at least `INT_MAX`, `findSmallest` returns whatever value its
uninitialised local `ans` held. -/
theorem findSmallest_unassigned (ans0 : Int) (array : List Nat) (size : Nat)
    (h : ∀ x ∈ array, INT_MAX ≤ x) : findSmallest ans0 array size = ans0 := by
  unfold findSmallest
  exact findSmallestLoop_unassigned _ 0 INT_MAX ans0
    (fun x hx => h x (List.mem_of_mem_take hx))

/-- With the capacity of the source (4 GiB) and an `int` size, a vector whose slots are all
full has every occupancy above `INT_MAX`, so `findSmallest` leaves `ans` unassigned. -/
theorem findSmallest_unassigned_of_all_full (ans0 : Int) (BBmonitor : List Nat) (size : Nat)
    (hsize : size ≤ INT_MAX) (hfull : ∀ x ∈ BBmonitor, burstBufferMaxSize ≤ x + size) :
    findSmallest ans0 BBmonitor BBmonitor.length = ans0 := by
  apply findSmallest_unassigned
  intro x hx
  have := hfull x hx
  simp only [burstBufferMaxSize, INT_MAX] at *
  omega

/-- When some cell is below `smallest`, the loop of `findSmallest` does assign `ans`: the
result is the first index (counted from `i`) holding the least value of the list. -/
theorem findSmallestLoop_min (l : List Nat) (i smallest : Nat) (ans : Int)
    (h : ∃ x ∈ l, x < smallest) :
    ∃ k v : Nat, findSmallestLoop l i smallest ans = ((i + k : Nat) : Int) ∧
      l[k]? = some v ∧ v < smallest ∧ (∀ x ∈ l, v ≤ x) ∧
      ∀ j u : Nat, j < k → l[j]? = some u → v < u := by
  induction l generalizing i smallest ans with
  | nil => obtain ⟨x, hx, _⟩ := h; cases hx
  | cons x rest ih =>
    by_cases hx : smallest > x
    · simp only [findSmallestLoop, hx, if_true]
      by_cases hrest : ∃ y ∈ rest, y < x
      · obtain ⟨k, v, hres, hget, hlt, hmin, hfirst⟩ := ih (i + 1) x (i : Int) hrest
        refine ⟨k + 1, v, ?_, ?_, ?_, ?_, ?_⟩
        · rw [hres]; congr 1; omega
        · simpa using hget
        · omega
        · intro z hz
          rcases List.mem_cons.mp hz with rfl | hz
          · omega
          · exact hmin z hz
        · intro j u hj hu
          cases j with
          | zero =>
            simp only [List.getElem?_cons_zero, Option.some.injEq] at hu
            omega
          | succ j =>
            simp only [List.getElem?_cons_succ] at hu
            exact hfirst j u (by omega) hu
      · have hall : ∀ y ∈ rest, x ≤ y := by
          intro y hy
          by_contra hc
          exact hrest ⟨y, hy, by omega⟩
        refine ⟨0, x, ?_, ?_, hx, ?_, ?_⟩
        · rw [findSmallestLoop_unassigned rest (i + 1) x (i : Int) hall]; rfl
        · simp
        · intro z hz
          rcases List.mem_cons.mp hz with rfl | hz
          · exact le_refl _
          · exact hall z hz
        · intro j u hj _
          omega
    · simp only [findSmallestLoop, hx, if_false]
      have hrest : ∃ y ∈ rest, y < smallest := by
        obtain ⟨y, hy, hlt⟩ := h
        rcases List.mem_cons.mp hy with rfl | hy
        · exact absurd hlt hx
        · exact ⟨y, hy, hlt⟩
      obtain ⟨k, v, hres, hget, hlt, hmin, hfirst⟩ := ih (i + 1) smallest ans hrest
      refine ⟨k + 1, v, ?_, ?_, hlt, ?_, ?_⟩
      · rw [hres]; congr 1; omega
      · simpa using hget
      · intro z hz
        rcases List.mem_cons.mp hz with rfl | hz
        · omega
        · exact hmin z hz
      · intro j u hj hu
        cases j with
        | zero =>
          simp only [List.getElem?_cons_zero, Option.some.injEq] at hu
          omega
        | succ j =>
          simp only [List.getElem?_cons_succ] at hu
          exact hfirst j u (by omega) hu

/-- When at least one occupancy is below `INT_MAX`, `findSmallest` returns the lowest index
among the slots holding the minimum occupancy, whatever `ans` held before. -/
theorem findSmallest_min (ans0 : Int) (array : List Nat) (h : ∃ x ∈ array, x < INT_MAX) :
    ∃ k v : Nat, findSmallest ans0 array array.length = (k : Int) ∧
      array[k]? = some v ∧ (∀ x ∈ array, v ≤ x) ∧
      ∀ j u : Nat, j < k → array[j]? = some u → v < u := by
  unfold findSmallest
  rw [List.take_length]
  obtain ⟨k, v, hres, hget, _, hmin, hfirst⟩ := findSmallestLoop_min array 0 INT_MAX ans0 h
  exact ⟨k, v, by rw [hres]; congr 1; omega, hget, hmin, hfirst⟩

/-- Remote branch when `findSmallest` assigns `ans`: if some occupancy is below `INT_MAX`
and the probe is accepted although the local slot has no room, the target is the lowest
index among the slots holding the minimum occupancy. -/
theorem coordinatorProbe_remote_of_assigned (maxSize : Nat) (ans0 : Int)
    (BBmonitor : List Nat) (source : Nat) (size : Int) (occ : Nat) (t : Int)
    (mon' : List Nat) (hassigned : ∃ x ∈ BBmonitor, x < INT_MAX)
    (hocc : BBmonitor[source / 8]? = some occ)
    (hfull : ¬ addULong occ (toULong size) < maxSize)
    (h : coordinatorProbe maxSize ans0 BBmonitor source size = some (⟨1, t⟩, mon')) :
    ∃ k v : Nat, t = (k : Int) * 8 + 7 ∧ BBmonitor[k]? = some v ∧
      (∀ x ∈ BBmonitor, v ≤ x) ∧ ∀ j u : Nat, j < k → BBmonitor[j]? = some u → v < u := by
  obtain ⟨k, v, hk, hget, hmin, hfirst⟩ := findSmallest_min ans0 BBmonitor hassigned
  obtain ⟨occLocal, hl, hcase⟩ :=
    coordinatorProbe_cases maxSize ans0 BBmonitor source size ⟨1, t⟩ mon' h
  rw [hocc] at hl
  cases hl
  rcases hcase with ⟨h1, _, _⟩ | ⟨_, r, occS, hr, _, ⟨_, hd, _⟩ | ⟨_, hd, _⟩⟩
  · exact absurd h1 hfull
  · have hrk : r = k := by
      rw [hk] at hr
      exact_mod_cast hr.symm
    subst hrk
    exact ⟨r, v, by injection hd, hget, hmin, hfirst⟩
  · have hc : (1 : Int) = 0 := congrArg Decision.checkResult hd
    exact absurd hc (by decide)

/-- Reject branch when `findSmallest` assigns `ans`: if some occupancy is below `INT_MAX`,
adding the size overflows no counter, and the probe is rejected, then no slot has room. -/
theorem coordinatorProbe_reject_of_assigned (maxSize : Nat) (ans0 : Int)
    (BBmonitor : List Nat) (source : Nat) (size : Int) (t : Int) (mon' : List Nat)
    (hassigned : ∃ x ∈ BBmonitor, x < INT_MAX) (hsize : 0 < size)
    (hfit : ∀ x ∈ BBmonitor, (x : Int) + size < (ULONG_RANGE : Int))
    (h : coordinatorProbe maxSize ans0 BBmonitor source size = some (⟨0, t⟩, mon')) :
    t = 666 ∧ mon' = BBmonitor ∧ ∀ x ∈ BBmonitor, (maxSize : Int) ≤ (x : Int) + size := by
  have hnn : 0 ≤ size := le_of_lt hsize
  have hval : ∀ x ∈ BBmonitor, addULong x (toULong size) = x + size.toNat := by
    intro x hx
    apply addULong_toULong_of_lt x size hnn
    have h1 := hfit x hx
    have h2 : ((x + size.toNat : Nat) : Int) < (ULONG_RANGE : Int) := by
      push_cast
      rw [Int.toNat_of_nonneg hnn]
      exact h1
    exact_mod_cast h2
  obtain ⟨k, v, hk, hget, hmin, _⟩ := findSmallest_min ans0 BBmonitor hassigned
  obtain ⟨occLocal, _, hcase⟩ :=
    coordinatorProbe_cases maxSize ans0 BBmonitor source size ⟨0, t⟩ mon' h
  rcases hcase with ⟨_, hd, _⟩ | ⟨_, r, occS, hr, hs, ⟨_, hd, _⟩ | ⟨h2, hd, hm⟩⟩
  · have hc : (0 : Int) = 1 := congrArg Decision.checkResult hd
    exact absurd hc (by decide)
  · have hc : (0 : Int) = 1 := congrArg Decision.checkResult hd
    exact absurd hc (by decide)
  · have hrk : r = k := by
      rw [hk] at hr
      exact_mod_cast hr.symm
    subst hrk
    rw [hget] at hs
    cases hs
    refine ⟨by injection hd, hm, ?_⟩
    intro x hx
    have hvx := hmin x hx
    rw [hval v (List.getElem?_mem hget)] at h2
    have h3 : (maxSize : Int) ≤ ((v + size.toNat : Nat) : Int) := by
      exact_mod_cast not_lt.mp h2
    push_cast at h3
    rw [Int.toNat_of_nonneg hnn] at h3
    have h4 : (v : Int) ≤ (x : Int) := by exact_mod_cast hvx
    omega

/-- C3 (evaluation at the failing input): the vector `[3500000000, 2500000000, 3000000000]`
is reached from the zeroed vector of 24 ranks by accepted probes; on it `findSmallest`
returns the value its uninitialised `ans` held (every entry exceeds `INT_MAX`); with that
value equal to 2 (the result of the previous call) a probe of rank 1 for 1000000000 bytes,
whose local slot 0 has no room, is accepted at rank 23, slot 2, although slot 1 holds the
minimum. -/
theorem C3_remote_target_not_least_loaded :
    coordinatorLoop burstBufferMaxSize (initialBBmonitor 24)
        [Message.probe 1 1750000000 0, Message.probe 1 1750000000 0,
         Message.probe 9 1250000000 0, Message.probe 9 1250000000 0,
         Message.probe 17 1500000000 0, Message.probe 17 1500000000 0] =
      some ([⟨1, 7⟩, ⟨1, 7⟩, ⟨1, 15⟩, ⟨1, 15⟩, ⟨1, 23⟩, ⟨1, 23⟩],
        [3500000000, 2500000000, 3000000000]) ∧
    findSmallest 0 [3500000000, 2500000000, 1500000000] 3 = 2 ∧
    (∀ ans0 : Int, findSmallest ans0 [3500000000, 2500000000, 3000000000] 3 = ans0) ∧
    burstBufferMaxSize ≤ 3500000000 + 1000000000 ∧
    coordinatorProbe burstBufferMaxSize 2 [3500000000, 2500000000, 3000000000] 1 1000000000 =
      some (⟨1, 23⟩, [3500000000, 2500000000, 4000000000]) ∧
    ([3500000000, 2500000000, 3000000000] : List Nat)[1]? = some 2500000000 ∧
    ([3500000000, 2500000000, 3000000000] : List Nat)[((23 : Int) / 8).toNat]? =
      some 3000000000 ∧
    (2500000000 : Nat) < 3000000000 := by
  refine ⟨by decide, by decide, fun _ => rfl, by decide, by decide, by decide, by decide,
    by decide⟩

/-- C4 (evaluation at the failing input): the vector `[3000000000, 2500000000]` is reached
from the zeroed vector of 16 ranks by accepted probes; on it `findSmallest` returns the
value its uninitialised `ans` held; with that value equal to 0 (the result of the previous
call) a probe of rank 1 for 1500000000 bytes is rejected with the sentinel 666 although
slot 1 still has room: 2500000000 + 1500000000 is below the capacity. -/
theorem C4_rejected_although_slot_has_room :
    coordinatorLoop burstBufferMaxSize (initialBBmonitor 16)
        [Message.probe 9 1250000000 0, Message.probe 9 1250000000 0,
         Message.probe 1 1500000000 0, Message.probe 1 1500000000 0] =
      some ([⟨1, 15⟩, ⟨1, 15⟩, ⟨1, 7⟩, ⟨1, 7⟩], [3000000000, 2500000000]) ∧
    findSmallest 7 [1500000000, 2500000000] 2 = 0 ∧
    (∀ ans0 : Int, findSmallest ans0 [3000000000, 2500000000] 2 = ans0) ∧
    coordinatorProbe burstBufferMaxSize 0 [3000000000, 2500000000] 1 1500000000 =
      some (⟨0, 666⟩, [3000000000, 2500000000]) ∧
    ([3000000000, 2500000000] : List Nat)[1]? = some 2500000000 ∧
    2500000000 + 1500000000 < burstBufferMaxSize := by
  refine ⟨by decide, by decide, fun _ => rfl, by decide, by decide, by decide⟩

/-- C5 (evaluation at the failing input): the vector `[4294967295, 4294967295]` is reached
from the zeroed vector of 16 ranks by accepted probes and every slot of it is full for a
probe of 1 byte; on it `findSmallest` returns the value its uninitialised `ans` held, and
when that value is not an index of the vector (here 2, or -1) the step reads outside the
vector instead of answering accepted = 0 with the sentinel 666; the answer is the expected
one only when the value happens to be an index of the vector (here 0). -/
theorem C5_all_full_reads_unassigned_index :
    coordinatorLoop burstBufferMaxSize (initialBBmonitor 16)
        [Message.probe 1 2147483647 0, Message.probe 1 2147483647 0, Message.probe 1 1 0,
         Message.probe 9 2147483647 0, Message.probe 9 2147483647 0, Message.probe 9 1 0] =
      some ([⟨1, 7⟩, ⟨1, 7⟩, ⟨1, 7⟩, ⟨1, 15⟩, ⟨1, 15⟩, ⟨1, 15⟩], [4294967295, 4294967295]) ∧
    (∀ x ∈ ([4294967295, 4294967295] : List Nat), burstBufferMaxSize ≤ x + 1) ∧
    (∀ ans0 : Int, findSmallest ans0 [4294967295, 4294967295] 2 = ans0) ∧
    coordinatorProbe burstBufferMaxSize 2 [4294967295, 4294967295] 1 1 = none ∧
    coordinatorProbe burstBufferMaxSize (-1) [4294967295, 4294967295] 1 1 = none ∧
    coordinatorProbe burstBufferMaxSize 0 [4294967295, 4294967295] 1 1 =
      some (⟨0, 666⟩, [4294967295, 4294967295]) := by
  refine ⟨by decide, by decide, fun _ => rfl, by decide, by decide, by decide⟩

/-- C8: when the coordinator handles a report from burst-buffer rank `b` (with
`b % 8 = 7` and `b / 8` a slot of the vector) carrying the value `v`, slot `b / 8` holds
`v` afterwards, whatever it held before, and every other slot is unchanged. -/
theorem C8_report_overwrites_only_its_slot (BBmonitor : List Nat) (b v : Nat)
    (_hb : b % 8 = 7) (hslot : b / 8 < BBmonitor.length) :
    ∃ mon', coordinatorReport BBmonitor b v = some mon' ∧
      mon'[b / 8]? = some v ∧ mon'.length = BBmonitor.length ∧
      ∀ s, s ≠ b / 8 → mon'[s]? = BBmonitor[s]? := by
  refine ⟨BBmonitor.set (b / 8) v, ?_, ?_, ?_, ?_⟩
  · unfold coordinatorReport
    simp only [hslot, if_true]
  · exact List.getElem?_set_self hslot
  · exact List.length_set BBmonitor (b / 8) v
  · intro s hs
    exact List.getElem?_set_ne (Ne.symm hs)

/-- Witness for C8: rank 15 reports 200 on the vector `[500, 500, 500]`; slot 1 becomes
200; a following probe of rank 9 for 799 bytes with capacity 1000 is accepted at rank 15. -/
theorem C8_report_overwrites_only_its_slot_witness :
    (15 % 8 = 7 ∧ 15 / 8 < ([500, 500, 500] : List Nat).length) ∧
    (∃ mon', coordinatorReport [500, 500, 500] 15 200 = some mon' ∧
      mon'[15 / 8]? = some 200 ∧ mon'.length = ([500, 500, 500] : List Nat).length ∧
      ∀ s, s ≠ 15 / 8 → mon'[s]? = ([500, 500, 500] : List Nat)[s]?) ∧
    coordinatorLoop 1000 [500, 500, 500] [Message.report 15 200, Message.probe 9 799 0] =
      some ([⟨1, 15⟩], [500, 999, 500]) :=
  ⟨by decide,
   C8_report_overwrites_only_its_slot [500, 500, 500] 15 200 (by decide) (by decide),
   by decide⟩

/-- C9 (counterexample): with 10 ranks the vector has `10 / 8 = 1` slot, while writer
rank 9 (0 < 9 < 10, 9 mod 8 = 1) has local slot `9 / 8 = 1`, which is not an index of the
vector; the placement step then reads outside the vector for every capacity and size. -/
theorem C9_local_slot_outside_vector :
    (1 ≤ 10 ∧ 0 < 9 ∧ 9 < 10 ∧ 9 % 8 ≠ 7) ∧
    ¬ (9 / 8 < BBmonitorSize 10) ∧
    (initialBBmonitor 10).length = 1 ∧
    ∀ (maxSize : Nat) (ans0 size : Int),
      coordinatorProbe maxSize ans0 (initialBBmonitor 10) 9 size = none := by
  refine ⟨by decide, by decide, by decide, ?_⟩
  intro maxSize ans0 size
  rfl

/-- When some cell is below `smallest`, the result of the loop of `findSmallest` does not
depend on the value `ans` held before the loop. -/
theorem findSmallestLoop_assigned_indep (l : List Nat) (i smallest : Nat) (ans ans' : Int)
    (h : ∃ x ∈ l, x < smallest) :
    findSmallestLoop l i smallest ans = findSmallestLoop l i smallest ans' := by
  induction l generalizing i smallest ans ans' with
  | nil => obtain ⟨x, hx, _⟩ := h; cases hx
  | cons x rest ih =>
    by_cases hx : smallest > x
    · simp only [findSmallestLoop, hx, if_true]
    · simp only [findSmallestLoop, hx, if_false]
      apply ih
      obtain ⟨y, hy, hlt⟩ := h
      rcases List.mem_cons.mp hy with rfl | hy
      · exact absurd hlt hx
      · exact ⟨y, hy, hlt⟩

/-- Remote and reject branches of a probe, once the local test has failed and
`findSmallest` has returned the index `k` of a slot of the vector. -/
theorem coordinatorProbe_remote (maxSize : Nat) (ans0 : Int) (BBmonitor : List Nat)
    (source : Nat) (size : Int) (occ k v : Nat)
    (hocc : BBmonitor[source / 8]? = some occ)
    (hfull : ¬ addULong occ (toULong size) < maxSize)
    (hk : findSmallest ans0 BBmonitor BBmonitor.length = (k : Int))
    (hv : BBmonitor[k]? = some v) :
    coordinatorProbe maxSize ans0 BBmonitor source size =
      if addULong v (toULong size) < maxSize then
        some (⟨1, (k : Int) * 8 + 7⟩, BBmonitor.set k (addULong v (toULong size)))
      else some (⟨0, 666⟩, BBmonitor) := by
  have hneg : ¬ ((k : Int) < 0) := by omega
  unfold coordinatorProbe
  simp only [hocc, hfull, if_false, hk, hneg, Int.toNat_ofNat, hv]

/-- C9 (amended): for every rank count `N ≥ 1` and writer rank `w` with
`0 < w < 8 * (N / 8)` (every `w < N` when `N` is a multiple of 8) and `w % 8 ≠ 7`, the local
slot `w / 8` is an index of the occupancy vector of length `N / 8`. On every such vector
where the local slot has room or at least one occupancy is below `INT_MAX` (so that
`findSmallest` assigns its result), the placement step is defined and gives the same
decision whatever the uninitialised `ans` held; an accepted decision carries a target `t`
with `t % 8 = 7` and `0 ≤ t < N`, and any other decision carries the sentinel 666. -/
theorem C9_targets_are_burst_buffer_ranks (N w maxSize : Nat) (BBmonitor : List Nat)
    (size : Int) (_hN : 1 ≤ N) (_hw : 0 < w) (_hwN : w < N) (_hmod : w % 8 ≠ 7)
    (hgroup : w < 8 * (N / 8)) (hlen : BBmonitor.length = BBmonitorSize N)
    (hassigned : (∃ x ∈ BBmonitor, x < INT_MAX) ∨
      ∃ occ, BBmonitor[w / 8]? = some occ ∧ addULong occ (toULong size) < maxSize) :
    w / 8 < BBmonitorSize N ∧
    ∃ (d : Decision) (mon' : List Nat),
      (∀ ans0 : Int, coordinatorProbe maxSize ans0 BBmonitor w size = some (d, mon')) ∧
      (d.checkResult = 1 →
        d.BBrank2send % 8 = 7 ∧ 0 ≤ d.BBrank2send ∧ d.BBrank2send < (N : Int)) ∧
      (d.checkResult ≠ 1 → d.BBrank2send = 666) := by
  unfold BBmonitorSize at hlen ⊢
  have hslot : w / 8 < N / 8 := by omega
  refine ⟨hslot, ?_⟩
  have hslot' : w / 8 < BBmonitor.length := by rw [hlen]; exact hslot
  have hocc : BBmonitor[w / 8]? = some (BBmonitor[w / 8]) := List.getElem?_eq_getElem hslot'
  by_cases h1 : addULong (BBmonitor[w / 8]) (toULong size) < maxSize
  · refine ⟨⟨1, ((w / 8 : Nat) : Int) * 8 + 7⟩, _,
      fun ans0 => coordinatorProbe_local maxSize ans0 BBmonitor w size _ hocc h1, ?_, ?_⟩
    · intro _
      refine ⟨?_, ?_, ?_⟩
      · simp only; omega
      · simp only; omega
      · simp only; omega
    · intro hne
      exact absurd rfl hne
  · have hex : ∃ x ∈ BBmonitor, x < INT_MAX := by
      rcases hassigned with h | ⟨occ, ho, hroom⟩
      · exact h
      · rw [hocc] at ho
        cases ho
        exact absurd hroom h1
    obtain ⟨k, v, hk, hv, _, _⟩ := findSmallest_min 0 BBmonitor hex
    have hkall : ∀ ans0 : Int, findSmallest ans0 BBmonitor BBmonitor.length = (k : Int) := by
      intro ans0
      rw [← hk]
      unfold findSmallest
      rw [List.take_length]
      exact findSmallestLoop_assigned_indep BBmonitor 0 INT_MAX ans0 0 hex
    have hklt : k < BBmonitor.length := (List.getElem?_eq_some.mp hv).1
    by_cases h2 : addULong v (toULong size) < maxSize
    · refine ⟨⟨1, (k : Int) * 8 + 7⟩, BBmonitor.set k (addULong v (toULong size)), ?_, ?_, ?_⟩
      · intro ans0
        rw [coordinatorProbe_remote maxSize ans0 BBmonitor w size _ k v hocc h1 (hkall ans0) hv]
        simp only [h2, if_true]
      · intro _
        refine ⟨?_, ?_, ?_⟩
        · simp only; omega
        · simp only; omega
        · simp only; omega
      · intro hne
        exact absurd rfl hne
    · refine ⟨⟨0, 666⟩, BBmonitor, ?_, ?_, ?_⟩
      · intro ans0
        rw [coordinatorProbe_remote maxSize ans0 BBmonitor w size _ k v hocc h1 (hkall ans0) hv]
        simp only [h2, if_false]
      · intro hacc
        simp at hacc
      · intro _
        rfl

/-- Witness for C9: 16 ranks, writer rank 9, capacity 1000, vector `[999, 999]`, size 5:
the step is defined and answers with the sentinel whatever `ans` held (here also 2, which
is not a slot). -/
theorem C9_targets_are_burst_buffer_ranks_witness :
    coordinatorProbe 1000 2 [999, 999] 9 5 = some (⟨0, 666⟩, [999, 999]) ∧
    coordinatorProbe 1000 0 [999, 400] 9 5 = some (⟨1, 15⟩, [999, 405]) ∧
    (9 / 8 < BBmonitorSize 16 ∧
    ∃ (d : Decision) (mon' : List Nat),
      (∀ ans0 : Int, coordinatorProbe 1000 ans0 [999, 999] 9 5 = some (d, mon')) ∧
      (d.checkResult = 1 →
        d.BBrank2send % 8 = 7 ∧ 0 ≤ d.BBrank2send ∧ d.BBrank2send < ((16 : Nat) : Int)) ∧
      (d.checkResult ≠ 1 → d.BBrank2send = 666)) :=
  ⟨by decide, by decide,
   C9_targets_are_burst_buffer_ranks 16 9 1000 [999, 999] 5 (by decide) (by decide)
     (by decide) (by decide) (by decide) (by decide)
     (Or.inl ⟨999, by simp, by decide⟩)⟩

/-- C10: for two probes `(w1, s1)` and `(w2, s2)` whose local slots differ and both have
room, handling them in either order gives each writer its own local burst buffer as
target and reaches the same occupancy vector, in which the two local slots hold their
previous occupancy plus the size (as 64-bit values) and the other slots are unchanged. -/
theorem C10_disjoint_local_probes_commute (maxSize : Nat) (a1 a2 b1 b2 : Int)
    (BBmonitor : List Nat) (w1 w2 s1 s2 o1 o2 : Nat)
    (h1 : BBmonitor[w1 / 8]? = some o1) (h2 : BBmonitor[w2 / 8]? = some o2)
    (hne : w1 / 8 ≠ w2 / 8) (hr1 : o1 + s1 < maxSize) (hr2 : o2 + s2 < maxSize) :
    ∃ final : List Nat,
      coordinatorLoop maxSize BBmonitor
          [Message.probe w1 (s1 : Int) a1, Message.probe w2 (s2 : Int) a2] =
        some ([⟨1, ((w1 / 8 : Nat) : Int) * 8 + 7⟩, ⟨1, ((w2 / 8 : Nat) : Int) * 8 + 7⟩],
          final) ∧
      coordinatorLoop maxSize BBmonitor
          [Message.probe w2 (s2 : Int) b1, Message.probe w1 (s1 : Int) b2] =
        some ([⟨1, ((w2 / 8 : Nat) : Int) * 8 + 7⟩, ⟨1, ((w1 / 8 : Nat) : Int) * 8 + 7⟩],
          final) ∧
      final[w1 / 8]? = some ((o1 + s1) % ULONG_RANGE) ∧
      final[w2 / 8]? = some ((o2 + s2) % ULONG_RANGE) ∧
      ∀ s, s ≠ w1 / 8 → s ≠ w2 / 8 → final[s]? = BBmonitor[s]? := by
  have hv1 : addULong o1 (toULong (s1 : Int)) = (o1 + s1) % ULONG_RANGE := by
    rw [addULong_toULong o1 (s1 : Int) (Int.ofNat_nonneg s1)]; simp
  have hv2 : addULong o2 (toULong (s2 : Int)) = (o2 + s2) % ULONG_RANGE := by
    rw [addULong_toULong o2 (s2 : Int) (Int.ofNat_nonneg s2)]; simp
  have ht1 : addULong o1 (toULong (s1 : Int)) < maxSize := by
    rw [hv1]; exact lt_of_le_of_lt (Nat.mod_le _ _) hr1
  have ht2 : addULong o2 (toULong (s2 : Int)) < maxSize := by
    rw [hv2]; exact lt_of_le_of_lt (Nat.mod_le _ _) hr2
  have hl1 : w1 / 8 < BBmonitor.length := (List.getElem?_eq_some.mp h1).1
  have hl2 : w2 / 8 < BBmonitor.length := (List.getElem?_eq_some.mp h2).1
  have h2' : ∀ v, (BBmonitor.set (w1 / 8) v)[w2 / 8]? = some o2 := by
    intro v; rw [List.getElem?_set_ne hne]; exact h2
  have h1' : ∀ v, (BBmonitor.set (w2 / 8) v)[w1 / 8]? = some o1 := by
    intro v; rw [List.getElem?_set_ne (Ne.symm hne)]; exact h1
  refine ⟨(BBmonitor.set (w1 / 8) (addULong o1 (toULong (s1 : Int)))).set (w2 / 8)
    (addULong o2 (toULong (s2 : Int))), ?_, ?_, ?_, ?_, ?_⟩
  · simp only [coordinatorLoop,
      coordinatorProbe_local maxSize a1 BBmonitor w1 (s1 : Int) o1 h1 ht1,
      coordinatorProbe_local maxSize a2 _ w2 (s2 : Int) o2 (h2' _) ht2]
  · simp only [coordinatorLoop,
      coordinatorProbe_local maxSize b1 BBmonitor w2 (s2 : Int) o2 h2 ht2,
      coordinatorProbe_local maxSize b2 _ w1 (s1 : Int) o1 (h1' _) ht1]
    rw [List.set_comm _ _ _ hne]
  · rw [List.getElem?_set_ne (Ne.symm hne), List.getElem?_set_self hl1, hv1]
  · rw [List.getElem?_set_self (by rw [List.length_set]; exact hl2), hv2]
  · intro s hs1 hs2
    rw [List.getElem?_set_ne (Ne.symm hs2), List.getElem?_set_ne (Ne.symm hs1)]

/-- Witness for C10: ranks 9 and 17, size 600, capacity 1000, zeroed vector of three
slots: both orders end with slot 1 and slot 2 at 600. -/
theorem C10_disjoint_local_probes_commute_witness :
    coordinatorLoop 1000 [0, 0, 0] [Message.probe 9 600 0, Message.probe 17 600 0] =
      some ([⟨1, 15⟩, ⟨1, 23⟩], [0, 600, 600]) ∧
    coordinatorLoop 1000 [0, 0, 0] [Message.probe 17 600 0, Message.probe 9 600 0] =
      some ([⟨1, 23⟩, ⟨1, 15⟩], [0, 600, 600]) ∧
    ∃ final : List Nat,
      coordinatorLoop 1000 [0, 0, 0]
          [Message.probe 9 ((600 : Nat) : Int) 0, Message.probe 17 ((600 : Nat) : Int) 0] =
        some ([⟨1, ((9 / 8 : Nat) : Int) * 8 + 7⟩, ⟨1, ((17 / 8 : Nat) : Int) * 8 + 7⟩],
          final) ∧
      coordinatorLoop 1000 [0, 0, 0]
          [Message.probe 17 ((600 : Nat) : Int) 0, Message.probe 9 ((600 : Nat) : Int) 0] =
        some ([⟨1, ((17 / 8 : Nat) : Int) * 8 + 7⟩, ⟨1, ((9 / 8 : Nat) : Int) * 8 + 7⟩],
          final) ∧
      final[9 / 8]? = some ((0 + 600) % ULONG_RANGE) ∧
      final[17 / 8]? = some ((0 + 600) % ULONG_RANGE) ∧
      ∀ s, s ≠ 9 / 8 → s ≠ 17 / 8 → final[s]? = ([0, 0, 0] : List Nat)[s]? :=
  ⟨by decide, by decide,
   C10_disjoint_local_probes_commute 1000 0 0 0 0 [0, 0, 0] 9 17 600 600 0 0
     (by decide) (by decide) (by decide) (by decide) (by decide)⟩

/-! ## The FIFO as a list of pending lengths -/

theorem initialFifo_wf : FifoWF initialFifo := by
  unfold FifoWF initialFifo MAX
  simp

theorem pending_length (q : Fifo) : (pending q).length = q.itemCount.toNat := by
  simp [pending]

theorem insert_of_full (q : Fifo) (x : Nat) (h : q.itemCount = (MAX : Int)) :
    insert q x = q := by
  simp [insert, isFull, h]

theorem insert_wf (q : Fifo) (x : Nat) (h : FifoWF q) : FifoWF (insert q x) := by
  by_cases hfull : q.itemCount = (MAX : Int)
  · rw [insert_of_full q x hfull]; exact h
  · obtain ⟨h1, h2, h3, h4, h5, h6, h7⟩ := h
    simp only [insert, isFull, hfull, decide_False, if_true]
    unfold FifoWF
    simp only [MAX] at *
    split_ifs at h7 ⊢ <;> omega

theorem insert_itemCount (q : Fifo) (x : Nat) (h : q.itemCount ≠ (MAX : Int)) :
    (insert q x).itemCount = q.itemCount + 1 := by
  simp [insert, isFull, h]

theorem pending_insert (q : Fifo) (x : Nat) (h : FifoWF q) (hroom : q.itemCount < (MAX : Int)) :
    pending (insert q x) = pending q ++ [x] := by
  obtain ⟨h1, h2, h3, h4, h5, h6, h7⟩ := h
  have hfull : q.itemCount ≠ (MAX : Int) := ne_of_lt hroom
  obtain ⟨f, hf⟩ := Int.eq_ofNat_of_zero_le h1
  obtain ⟨n, hn⟩ := Int.eq_ofNat_of_zero_le h3
  have hw : ((if q.rear = (MAX : Int) - 1 then (-1 : Int) else q.rear) + 1).toNat =
      (f + n) % MAX := by
    rw [h7, hf, hn]
    simp only [MAX]
    omega
  have hnlt : n < MAX := by
    rw [hn] at hroom
    exact_mod_cast hroom
  simp only [insert, isFull, hfull, decide_False, if_true, pending, hw]
  rw [hf, hn]
  have e1 : ((n : Int) + 1).toNat = n + 1 := by omega
  simp only [e1, Int.toNat_ofNat, List.range_succ, List.map_append, List.map_cons,
    List.map_nil, Function.update_same]
  congr 1
  apply List.map_congr_left
  intro k hk
  have hk' : k < n := List.mem_range.mp hk
  apply Function.update_noteq
  simp only [MAX] at hnlt ⊢
  omega

theorem removeData_wf (q : Fifo) (h : FifoWF q) (hpos : 0 < q.itemCount) :
    FifoWF (removeData q).2 := by
  obtain ⟨h1, h2, h3, h4, h5, h6, h7⟩ := h
  unfold FifoWF removeData
  simp only [MAX] at *
  split_ifs at h7 ⊢ <;> omega

theorem pending_removeData (q : Fifo) (h : FifoWF q) (hpos : 0 < q.itemCount) :
    pending q = (removeData q).1 :: pending (removeData q).2 := by
  obtain ⟨h1, h2, h3, h4, h5, h6, h7⟩ := h
  obtain ⟨f, hf⟩ := Int.eq_ofNat_of_zero_le h1
  obtain ⟨n, hn⟩ := Int.eq_ofNat_of_zero_le (le_of_lt hpos)
  have hn1 : 1 ≤ n := by
    rw [hn] at hpos
    exact_mod_cast hpos
  obtain ⟨m, rfl⟩ : ∃ m, n = m + 1 := ⟨n - 1, by omega⟩
  have hflt : f < MAX := by
    rw [hf] at h2
    exact_mod_cast h2
  simp only [removeData, pending, hf, hn, Int.toNat_ofNat]
  have e1 : (((m + 1 : Nat) : Int) - 1).toNat = m := by omega
  rw [e1, List.range_succ_eq_map, List.map_cons, List.map_map]
  have e0 : (f + 0) % MAX = f := by
    rw [Nat.add_zero]; exact Nat.mod_eq_of_lt hflt
  rw [e0]
  congr 1
  apply List.map_congr_left
  intro k _
  simp only [Function.comp_apply]
  congr 1
  simp only [MAX] at hflt ⊢
  split_ifs <;> omega

/-! ## Invariant of a burst-buffer node -/

theorem initialBBNode_inv (buf0 : Nat → Nat) : BBInv (initialBBNode buf0) := by
  refine ⟨initialFifo_wf, ?_, ?_⟩
  · simp [initialBBNode, initialFifo, pending]
  · simp [initialBBNode, initialFifo, pending]

theorem pending_sum_le (q : Fifo) (h : ∀ x ∈ pending q, x ≤ INT_MAX) :
    (pending q).sum ≤ q.itemCount.toNat * INT_MAX := by
  have := List.sum_le_card_nsmul (pending q) INT_MAX h
  rw [pending_length] at this
  simpa using this

theorem toULong_length (data : List Nat) (h : data.length ≤ INT_MAX) :
    toULong (data.length : Int) = data.length := by
  rw [toULong_of_nonneg _ (Int.ofNat_nonneg _)]
  simp only [Int.toNat_ofNat]
  apply Nat.mod_eq_of_lt
  simp only [INT_MAX, ULONG_RANGE] at *
  omega

theorem producerStep_inv (s : BBNode) (data : List Nat) (h : BBInv s)
    (hroom : isFull s.fifo = false) (hlen : data.length ≤ INT_MAX) :
    BBInv (producerStep s data) ∧
    pending (producerStep s data).fifo = pending s.fifo ++ [data.length] := by
  obtain ⟨hwf, hocc, hint⟩ := h
  have hne : s.fifo.itemCount ≠ (MAX : Int) := by
    simpa [isFull] using hroom
  have hlt : s.fifo.itemCount < (MAX : Int) := lt_of_le_of_ne hwf.2.2.2.1 hne
  have hpend : pending (producerStep s data).fifo = pending s.fifo ++ [data.length] := by
    simp only [producerStep, toULong_length data hlen]
    exact pending_insert s.fifo data.length hwf hlt
  refine ⟨⟨?_, ?_, ?_⟩, hpend⟩
  · simp only [producerStep]
    exact insert_wf s.fifo _ hwf
  · rw [hpend, List.sum_append, List.sum_singleton, ← hocc]
    simp only [producerStep, toULong_length data hlen, addULong]
    apply Nat.mod_eq_of_lt
    have hb := pending_sum_le s.fifo hint
    rw [← hocc] at hb
    have hcount : s.fifo.itemCount.toNat ≤ 2000 := by
      have := hwf.2.2.2.1
      simp only [MAX] at this
      omega
    have hmul : s.fifo.itemCount.toNat * INT_MAX ≤ 2000 * INT_MAX :=
      Nat.mul_le_mul_right _ hcount
    simp only [INT_MAX, ULONG_RANGE] at *
    omega
  · intro x hx
    rw [hpend, List.mem_append, List.mem_singleton] at hx
    rcases hx with hx | hx
    · exact hint x hx
    · rw [hx]; exact hlen

theorem consumerStep_inv (s : BBNode) (h : BBInv s) :
    ∃ s', consumerStep s = some s' ∧ BBInv s' := by
  obtain ⟨hwf, hocc, hint⟩ := h
  by_cases hpos : s.localBBmonitor > 0
  · have hcount : 0 < s.fifo.itemCount := by
      by_contra hc
      have h0 : s.fifo.itemCount.toNat = 0 := by
        have := hwf.2.2.1
        omega
      have : pending s.fifo = [] := by
        apply List.eq_nil_of_length_eq_zero
        rw [pending_length, h0]
      rw [this] at hocc
      simp at hocc
      omega
    have hne : isEmpty s.fifo = false := by
      simp only [isEmpty, decide_eq_false_iff_not]
      omega
    have hpend := pending_removeData s.fifo hwf hcount
    refine ⟨_, by simp only [consumerStep, hpos, hne, if_true]; rfl, ?_, ?_, ?_⟩
    · exact removeData_wf s.fifo hwf hcount
    · show subULong s.localBBmonitor (removeData s.fifo).1 = (pending (removeData s.fifo).2).sum
      have hsum : s.localBBmonitor =
          (removeData s.fifo).1 + (pending (removeData s.fifo).2).sum := by
        rw [hocc, hpend, List.sum_cons]
      have hb := pending_sum_le s.fifo hint
      rw [← hocc] at hb
      have hcnt : s.fifo.itemCount.toNat ≤ 2000 := by
        have := hwf.2.2.2.1
        simp only [MAX] at this
        omega
      have hmul : s.fifo.itemCount.toNat * INT_MAX ≤ 2000 * INT_MAX :=
        Nat.mul_le_mul_right _ hcnt
      unfold subULong
      simp only [INT_MAX, ULONG_RANGE] at *
      omega
    · intro x hx
      apply hint x
      rw [hpend]
      exact List.mem_cons_of_mem _ hx
  · exact ⟨s, by simp only [consumerStep, hpos, if_false], hwf, hocc, hint⟩

theorem runBB_append (s : BBNode) (a b : List BBAction) :
    runBB s (a ++ b) = (runBB s a).bind (fun s' => runBB s' b) := by
  induction a generalizing s with
  | nil => rfl
  | cons x rest ih =>
    cases x with
    | produce data => simp only [List.cons_append, runBB]; exact ih _
    | consume =>
      simp only [List.cons_append, runBB]
      cases consumerStep s with
      | none => rfl
      | some s' => exact ih s'

/-- The node invariant is kept along every interleaving in which the producer sends `int`
sizes and never finds the FIFO full; in particular the run never aborts. -/
theorem runBB_inv (acts : List BBAction) (s : BBNode) (h : BBInv s)
    (hsizes : ∀ data, BBAction.produce data ∈ acts → data.length ≤ INT_MAX)
    (hroom : neverFull s acts = true) :
    ∃ s', runBB s acts = some s' ∧ BBInv s' := by
  induction acts generalizing s with
  | nil => exact ⟨s, rfl, h⟩
  | cons x rest ih =>
    cases x with
    | produce data =>
      simp only [neverFull, Bool.and_eq_true, Bool.not_eq_true'] at hroom
      have hlen := hsizes data (List.mem_cons_self _ _)
      have hstep := (producerStep_inv s data h hroom.1 hlen).1
      simp only [runBB]
      exact ih _ hstep (fun d hd => hsizes d (List.mem_cons_of_mem _ hd)) hroom.2
    | consume =>
      obtain ⟨s1, hs1, hinv1⟩ := consumerStep_inv s h
      simp only [neverFull, hs1] at hroom
      simp only [runBB, hs1]
      exact ih s1 hinv1 (fun d hd => hsizes d (List.mem_cons_of_mem _ hd)) hroom

/-- Producer steps of one byte each, starting with `k` pending chunks and ending with at
most `MAX`: the invariant holds at the end, with `n` more chunks and `n` more bytes. -/
theorem runBB_replicate_produce (n : Nat) (s : BBNode) (k : Nat) (h : BBInv s)
    (hk : s.fifo.itemCount = (k : Int)) (hle : k + n ≤ MAX) :
    ∃ s', runBB s (List.replicate n (BBAction.produce [0])) = some s' ∧ BBInv s' ∧
      s'.fifo.itemCount = ((k + n : Nat) : Int) ∧ s'.localBBmonitor = s.localBBmonitor + n := by
  induction n generalizing s k with
  | zero => exact ⟨s, rfl, h, by simpa using hk, rfl⟩
  | succ n ih =>
    have hne : s.fifo.itemCount ≠ (MAX : Int) := by
      rw [hk]
      have : k < MAX := by omega
      exact_mod_cast ne_of_lt this
    have hroom : isFull s.fifo = false := by simpa [isFull] using hne
    have hlen : ([0] : List Nat).length ≤ INT_MAX := by simp [INT_MAX]
    obtain ⟨hinv, hpend⟩ := producerStep_inv s [0] h hroom hlen
    have hcount : (producerStep s [0]).fifo.itemCount = ((k + 1 : Nat) : Int) := by
      simp only [producerStep]
      rw [insert_itemCount _ _ hne, hk]
      push_cast
      rfl
    obtain ⟨s', hrun, hinv', hc', ho'⟩ := ih (producerStep s [0]) (k + 1) hinv hcount (by omega)
    refine ⟨s', ?_, hinv', ?_, ?_⟩
    · simp only [List.replicate_succ, runBB]; exact hrun
    · rw [hc']; congr 1; omega
    · rw [ho']
      have h1 : (producerStep s [0]).localBBmonitor = s.localBBmonitor + 1 := by
        have e1 := hinv.2.1
        rw [hpend, List.sum_append, List.sum_singleton, ← h.2.1] at e1
        simpa using e1
      rw [h1]; omega

/-! ## Claims about the burst-buffer node -/

/-- C7 (counterexample): 2001 producer steps of one byte each, without any consumer step.
The last `insert` finds the FIFO full and stores nothing, so the occupancy is 2001 while
the pending lengths sum to 2000. -/
theorem C7_full_fifo_drops_length :
    ∃ s, runBB (initialBBNode (fun _ => 0)) (List.replicate 2001 (BBAction.produce [0])) = some s ∧
      s.localBBmonitor = 2001 ∧ (pending s.fifo).sum = 2000 := by
  obtain ⟨s, hrun, hinv, hcount, hocc⟩ :=
    runBB_replicate_produce 2000 (initialBBNode (fun _ => 0)) 0
      (initialBBNode_inv _) rfl (by simp [MAX])
  have hfull : s.fifo.itemCount = (MAX : Int) := by
    rw [hcount]; simp [MAX]
  have hocc' : s.localBBmonitor = 2000 := by
    rw [hocc]; rfl
  refine ⟨producerStep s [0], ?_, ?_, ?_⟩
  · have : List.replicate 2001 (BBAction.produce [0]) =
        List.replicate 2000 (BBAction.produce [0]) ++ [BBAction.produce [0]] := by
      rw [← List.replicate_succ']
    rw [this, runBB_append, hrun]
    rfl
  · simp only [producerStep, hocc']
    decide
  · simp only [producerStep]
    rw [insert_of_full _ _ hfull, ← hinv.2.1, hocc']

/-- C7 (amended): starting from occupancy 0 and an empty FIFO, after every finite sequence
of producer steps with size > 0 (an `int`) and consumer steps in which no producer step
finds the FIFO already holding `MAX` = 2000 lengths, the run does not abort and the local
occupancy equals the sum of the lengths held in the FIFO. -/
theorem C7_occupancy_is_sum_of_pending (buf0 : Nat → Nat) (acts : List BBAction)
    (hsizes : ∀ data, BBAction.produce data ∈ acts → 0 < data.length ∧ data.length ≤ INT_MAX)
    (hroom : neverFull (initialBBNode buf0) acts = true) :
    ∃ s, runBB (initialBBNode buf0) acts = some s ∧
      s.localBBmonitor = (pending s.fifo).sum := by
  obtain ⟨s, hrun, hinv⟩ := runBB_inv acts (initialBBNode buf0) (initialBBNode_inv buf0)
    (fun d hd => (hsizes d hd).2) hroom
  exact ⟨s, hrun, hinv.2.1⟩

/-- Witness for C7: payloads of 3 bytes and 1 byte, then one drain; the occupancy and the
pending sum are both 1. -/
theorem C7_occupancy_is_sum_of_pending_witness :
    (runBB (initialBBNode (fun _ => 0))
      [BBAction.produce [1, 2, 3], BBAction.produce [9], BBAction.consume]).map
        BBNode.localBBmonitor = some 1 ∧
    (runBB (initialBBNode (fun _ => 0))
      [BBAction.produce [1, 2, 3], BBAction.produce [9], BBAction.consume]).map
        (fun s => pending s.fifo) = some [1] ∧
    ∃ s, runBB (initialBBNode (fun _ => 0))
        [BBAction.produce [1, 2, 3], BBAction.produce [9], BBAction.consume] = some s ∧
      s.localBBmonitor = (pending s.fifo).sum :=
  ⟨by decide, by decide,
   C7_occupancy_is_sum_of_pending (fun _ => 0)
     [BBAction.produce [1, 2, 3], BBAction.produce [9], BBAction.consume]
     (by
       intro data hd
       simp only [List.mem_cons, BBAction.produce.injEq, List.mem_singleton,
         List.mem_nil_iff, or_false] at hd
       rcases hd with rfl | rfl | hd
       · decide
       · decide
       · cases hd)
     (by decide)⟩

/-! ## The ring queue against the plain FIFO list -/

/-- Simulation along a run: from well-formed globals, a sequence of calls that respects the
conditions of use returns what the plain list holding `pending q` returns, ends with the
same content, and keeps the globals well formed. -/
theorem runFifo_simulates (calls : List FifoCall) (q : Fifo) (hwf : FifoWF q)
    (h : callsAllowed q calls = true) :
    specFifoRun (pending q) calls =
      some ((runFifo q calls).1, pending (runFifo q calls).2) ∧
    FifoWF (runFifo q calls).2 := by
  induction calls generalizing q with
  | nil => exact ⟨by simp [specFifoRun, runFifo], hwf⟩
  | cons c rest ih =>
    cases c with
    | insert data =>
      simp only [callsAllowed, Bool.and_eq_true, decide_eq_true_eq] at h
      obtain ⟨hres, hwf'⟩ := ih (insert q data) (insert_wf q data hwf) h.2
      rw [pending_insert q data hwf h.1] at hres
      exact ⟨by simp only [specFifoRun, runFifo]; exact hres, by simp only [runFifo]; exact hwf'⟩
    | removeData =>
      simp only [callsAllowed, Bool.and_eq_true, Bool.not_eq_true', isEmpty,
        decide_eq_false_iff_not] at h
      have hpos : 0 < q.itemCount := lt_of_le_of_ne hwf.2.2.1 (Ne.symm h.1)
      obtain ⟨hres, hwf'⟩ := ih (removeData q).2 (removeData_wf q hwf hpos) h.2
      refine ⟨?_, by simp only [runFifo]; exact hwf'⟩
      rw [pending_removeData q hwf hpos]
      simp only [specFifoRun, runFifo, hres]

/-- The plain list returns the values in insertion order: what has been removed followed
by what is still held is the initial content followed by the values inserted. -/
theorem specFifoRun_order (calls : List FifoCall) (l outs l' : List Nat)
    (h : specFifoRun l calls = some (outs, l')) :
    outs ++ l' = l ++ insertedValues calls := by
  induction calls generalizing l outs with
  | nil =>
    simp only [specFifoRun, Option.some.injEq, Prod.mk.injEq] at h
    obtain ⟨rfl, rfl⟩ := h
    simp [insertedValues]
  | cons c rest ih =>
    cases c with
    | insert data =>
      simp only [specFifoRun] at h
      rw [ih (l ++ [data]) outs h]
      simp [insertedValues]
    | removeData =>
      cases l with
      | nil => simp [specFifoRun] at h
      | cons x l =>
        simp only [specFifoRun] at h
        cases hr : specFifoRun l rest with
        | none => rw [hr] at h; simp at h
        | some p =>
          obtain ⟨outs1, l1⟩ := p
          rw [hr] at h
          simp only [Option.some.injEq, Prod.mk.injEq] at h
          obtain ⟨rfl, rfl⟩ := h
          have := ih l outs1 hr
          simp only [insertedValues, List.cons_append]
          rw [this]

theorem pending_initialFifo : pending initialFifo = [] := by
  simp [pending, initialFifo]

/-- `n` pairs of `insert` and `removeData` on an empty well-formed FIFO respect the
conditions of use and leave it empty with `front` advanced by `n` cells modulo `MAX`;
`rear` is then the cell just before `front`. -/
theorem runFifo_insertRemovePairs (n : Nat) (q : Fifo) (hwf : FifoWF q)
    (hempty : q.itemCount = 0) :
    callsAllowed q (insertRemovePairs n) = true ∧
    (runFifo q (insertRemovePairs n)).2.itemCount = 0 ∧
    (runFifo q (insertRemovePairs n)).2.front = (q.front + (n : Int)) % (MAX : Int) ∧
    (0 < n → (runFifo q (insertRemovePairs n)).2.rear =
      (q.front + (n : Int) - 1) % (MAX : Int)) := by
  induction n generalizing q with
  | zero =>
    obtain ⟨h1, h2, -⟩ := hwf
    refine ⟨rfl, hempty, ?_, fun h => absurd h (lt_irrefl 0)⟩
    simp only [insertRemovePairs, runFifo, MAX] at *
    omega
  | succ n ih =>
    have hne : q.itemCount ≠ (MAX : Int) := by rw [hempty]; simp [MAX]
    have hlt : q.itemCount < (MAX : Int) := by rw [hempty]; simp [MAX]
    have hwf1 : FifoWF (insert q n) := insert_wf q n hwf
    have hc1 : (insert q n).itemCount = 1 := by rw [insert_itemCount q n hne, hempty]; rfl
    have hf1 : (insert q n).front = q.front := by simp [insert, isFull, hne]
    have hr1 : (insert q n).rear = q.front := by
      obtain ⟨h1, h2, _, _, _, _, h7⟩ := hwf
      simp only [insert, isFull, hne, decide_False, if_true]
      rw [hempty] at h7
      simp only [MAX] at *
      split_ifs at h7 ⊢ <;> omega
    have hpos1 : 0 < (insert q n).itemCount := by rw [hc1]; decide
    have hwf2 : FifoWF (removeData (insert q n)).2 := removeData_wf _ hwf1 hpos1
    have hc2 : (removeData (insert q n)).2.itemCount = 0 := by
      simp only [removeData, hc1]; rfl
    have hf2 : (removeData (insert q n)).2.front = (q.front + 1) % (MAX : Int) := by
      obtain ⟨h1, h2, -⟩ := hwf
      simp only [removeData, hf1]
      simp only [MAX] at *
      split_ifs <;> omega
    have hr2 : (removeData (insert q n)).2.rear = q.front := by
      simp only [removeData]; exact hr1
    obtain ⟨ha, hcount, hfront, hrear⟩ := ih (removeData (insert q n)).2 hwf2 hc2
    refine ⟨?_, ?_, ?_, ?_⟩
    · simp only [insertRemovePairs, callsAllowed, Bool.and_eq_true, decide_eq_true_eq,
        Bool.not_eq_true', isEmpty, decide_eq_false_iff_not]
      exact ⟨hlt, by rw [hc1]; decide, ha⟩
    · simp only [insertRemovePairs, runFifo]; exact hcount
    · simp only [insertRemovePairs, runFifo]
      rw [hfront, hf2]
      push_cast
      simp only [MAX]
      omega
    · intro _
      simp only [insertRemovePairs, runFifo]
      obtain ⟨h1, h2, -⟩ := hwf
      by_cases hn : 0 < n
      · rw [hrear hn, hf2]
        push_cast
        simp only [MAX] at *
        omega
      · have hn0 : n = 0 := by omega
        subst hn0
        simp only [insertRemovePairs, runFifo]
        rw [hr2]
        simp only [MAX] at *
        push_cast
        omega

/-- Wrapped states are reached under the conditions of use: after `n` pairs of calls
from the initial state `front` is `n % MAX` (so it has wrapped `n / MAX` times), `rear`
is the cell before it, and the values came out in insertion order. -/
theorem runFifo_wraps (n : Nat) :
    callsAllowed initialFifo (insertRemovePairs n) = true ∧
    (runFifo initialFifo (insertRemovePairs n)).2.front = ((n % MAX : Nat) : Int) ∧
    (0 < n → (runFifo initialFifo (insertRemovePairs n)).2.rear =
      (((n - 1) % MAX : Nat) : Int)) ∧
    (runFifo initialFifo (insertRemovePairs n)).1 = insertedValues (insertRemovePairs n) := by
  obtain ⟨ha, hcount, hfront, hrear⟩ :=
    runFifo_insertRemovePairs n initialFifo initialFifo_wf rfl
  obtain ⟨hsim, _⟩ := runFifo_simulates (insertRemovePairs n) initialFifo initialFifo_wf ha
  have hord := specFifoRun_order _ _ _ _ hsim
  have hnil : pending (runFifo initialFifo (insertRemovePairs n)).2 = [] := by
    apply List.eq_nil_of_length_eq_zero
    rw [pending_length, hcount]
    rfl
  rw [hnil, pending_initialFifo] at hord
  refine ⟨ha, ?_, ?_, by simpa using hord⟩
  · rw [hfront]
    simp only [initialFifo, MAX]
    omega
  · intro hn
    rw [hrear hn]
    simp only [initialFifo, MAX]
    omega

/-! ## Claim about the FIFO -/

/-- C11: the ring queue refines a plain FIFO list. Starting from the initial globals, for
every sequence of `insert` and `removeData` calls in which `removeData` is only called on
a non-empty queue and `insert` only when fewer than `MAX` items are held, the values
returned by the `removeData` calls are exactly those the plain list returns (each one the
oldest value not yet removed), the list is never asked for a value it does not hold, the
content left in the array is the content left in the list, and the values removed followed
by the values still held are the inserted values in insertion order. The sequences are
arbitrary, so `front` and `rear` may have wrapped any number of times. -/
theorem C11_ring_queue_refines_fifo_list (calls : List FifoCall)
    (h : callsAllowed initialFifo calls = true) :
    specFifoRun [] calls =
      some ((runFifo initialFifo calls).1, pending (runFifo initialFifo calls).2) ∧
    (runFifo initialFifo calls).1 ++ pending (runFifo initialFifo calls).2 =
      insertedValues calls := by
  obtain ⟨hsim, _⟩ := runFifo_simulates calls initialFifo initialFifo_wf h
  rw [pending_initialFifo] at hsim
  refine ⟨hsim, ?_⟩
  have := specFifoRun_order calls [] _ _ hsim
  simpa using this

/-- Witness for C11: insert 5, insert 7, remove, insert 9, remove, remove returns 5, 7, 9. -/
theorem C11_ring_queue_refines_fifo_list_witness :
    (runFifo initialFifo
      [FifoCall.insert 5, FifoCall.insert 7, FifoCall.removeData, FifoCall.insert 9,
       FifoCall.removeData, FifoCall.removeData]).1 = [5, 7, 9] ∧
    (specFifoRun []
        [FifoCall.insert 5, FifoCall.insert 7, FifoCall.removeData, FifoCall.insert 9,
         FifoCall.removeData, FifoCall.removeData] =
      some ((runFifo initialFifo
        [FifoCall.insert 5, FifoCall.insert 7, FifoCall.removeData, FifoCall.insert 9,
         FifoCall.removeData, FifoCall.removeData]).1,
        pending (runFifo initialFifo
        [FifoCall.insert 5, FifoCall.insert 7, FifoCall.removeData, FifoCall.insert 9,
         FifoCall.removeData, FifoCall.removeData]).2) ∧
    (runFifo initialFifo
        [FifoCall.insert 5, FifoCall.insert 7, FifoCall.removeData, FifoCall.insert 9,
         FifoCall.removeData, FifoCall.removeData]).1 ++
      pending (runFifo initialFifo
        [FifoCall.insert 5, FifoCall.insert 7, FifoCall.removeData, FifoCall.insert 9,
         FifoCall.removeData, FifoCall.removeData]).2 =
      insertedValues
        [FifoCall.insert 5, FifoCall.insert 7, FifoCall.removeData, FifoCall.insert 9,
         FifoCall.removeData, FifoCall.removeData]) :=
  ⟨by decide,
   C11_ring_queue_refines_fifo_list
     [FifoCall.insert 5, FifoCall.insert 7, FifoCall.removeData, FifoCall.insert 9,
      FifoCall.removeData, FifoCall.removeData] (by decide)⟩

end CDBB
